import Mathlib

/-
Verification development for the extended isolation forest crate
(src/lib.rs).  The tree-building and traversal machinery is embedded
generically over a linear ordered field K, mirroring the Rust generic
float parameter T; exact real arithmetic stands in for f64 arithmetic.
The f64-only score pipeline (c_factor, the score transform) is embedded
over an IEEE-style value type F that distinguishes finite values from
the two infinities and NaN, so that the division 0/0 that occurs when a
forest owns zero trees is represented faithfully.  Randomness is
embedded as an explicit oracle (three streams indexed by call counters):
the code threads a mutable rng through every construction call, which
becomes explicit counter-threading here.
-/

namespace EIF

/-- A data point: one real-valued coordinate per dimension (Rust `[T; N]`). -/
abbrev Point (K : Type) (N : ℕ) := Fin N → K

/-- Routing outcome of `determinate_direction`. -/
inductive Direction where
  | left
  | right
deriving DecidableEq

/-- Whether a direction is `Left` (used for the one-pass partition). -/
def Direction.isLeft : Direction → Bool
  | .left => true
  | .right => false

/-- Tagged-union tree node (Rust `enum Node`): `ex` is `Ex(ExNode)` holding
`num_samples`, `inn` is `In(InNode)` holding the two owned children, the
normal vector `n` and the intercept point `p`. -/
inductive Node (K : Type) (N : ℕ) where
  | ex (num_samples : ℕ)
  | inn (left right : Node K N) (n p : Point K N)

/-- A tree owns exactly one root node. -/
structure Tree (K : Type) (N : ℕ) where
  root : Node K N

/-- IEEE-style f64 value: a finite real, one of the two infinities, or NaN.
Rounding is idealized away (finite values are exact reals); the special
values are what the claims about the score pipeline need. -/
inductive F where
  | fin (x : ℝ)
  | pinf
  | ninf
  | nan

/-- IEEE negation. -/
def negF : F → F
  | .fin x => .fin (-x)
  | .pinf => .ninf
  | .ninf => .pinf
  | .nan => .nan

/-- IEEE addition (inf + -inf = NaN, NaN propagates). -/
def addF : F → F → F
  | .fin x, .fin y => .fin (x + y)
  | .fin _, .pinf => .pinf
  | .fin _, .ninf => .ninf
  | .pinf, .fin _ => .pinf
  | .pinf, .pinf => .pinf
  | .ninf, .fin _ => .ninf
  | .ninf, .ninf => .ninf
  | _, _ => .nan

/-- IEEE subtraction. -/
def subF (a b : F) : F := addF a (negF b)

/-- IEEE multiplication (0 * inf = NaN, NaN propagates). -/
noncomputable def mulF : F → F → F
  | .fin x, .fin y => .fin (x * y)
  | .fin x, .pinf => if x = 0 then .nan else if 0 < x then .pinf else .ninf
  | .fin x, .ninf => if x = 0 then .nan else if 0 < x then .ninf else .pinf
  | .pinf, .fin y => if y = 0 then .nan else if 0 < y then .pinf else .ninf
  | .ninf, .fin y => if y = 0 then .nan else if 0 < y then .ninf else .pinf
  | .pinf, .pinf => .pinf
  | .pinf, .ninf => .ninf
  | .ninf, .pinf => .ninf
  | .ninf, .ninf => .pinf
  | _, _ => .nan

/-- IEEE division: 0/0 = NaN, x/0 = sign-inf for x nonzero (the +0 zero),
finite/inf = 0, inf/inf = NaN, NaN propagates. -/
noncomputable def divF : F → F → F
  | .fin x, .fin y =>
      if y = 0 then (if x = 0 then .nan else if 0 < x then .pinf else .ninf)
      else .fin (x / y)
  | .fin _, .pinf => .fin 0
  | .fin _, .ninf => .fin 0
  | .pinf, .fin y => if 0 ≤ y then .pinf else .ninf
  | .ninf, .fin y => if 0 ≤ y then .ninf else .pinf
  | _, _ => .nan

/-- IEEE natural logarithm: ln 0 = -inf, ln of a negative value = NaN. -/
noncomputable def lnF : F → F
  | .fin x => if 0 < x then .fin (Real.log x) else if x = 0 then .ninf else .nan
  | .pinf => .pinf
  | _ => .nan

/-- IEEE `2.0_f64.powf`: 2^(-inf) = 0, 2^(+inf) = +inf, NaN propagates. -/
noncomputable def pow2F : F → F
  | .fin x => .fin ((2 : ℝ) ^ x)
  | .pinf => .pinf
  | .ninf => .fin 0
  | .nan => .nan

/-- Rust saturating float-to-usize cast of `ceil()`: NaN and -inf go to 0,
+inf to usize::MAX, finite values clamp to [0, usize::MAX]. -/
noncomputable def ceilAsUsize : F → ℕ
  | .fin x => min (Int.toNat ⌈x⌉) (2 ^ 64 - 1)
  | .pinf => 2 ^ 64 - 1
  | _ => 0

/-- The literal Euler-Mascheroni constant written in the source. -/
noncomputable def eulerGamma : ℝ := 0.5772156649

/-- Average path length of unsuccessful search in a BST of n points
(`c_factor` in the source), as exact real arithmetic:
`2.0 * ((n as f64 - 1.0).log(E) + 0.5772156649) - (2.0 * (n as f64 - 1.0) / n as f64)`. -/
noncomputable def c_factor (n : ℕ) : ℝ :=
  2 * (Real.log ((n : ℝ) - 1) + eulerGamma) - 2 * ((n : ℝ) - 1) / (n : ℝ)

/-- The same `c_factor` computation carried out in IEEE f64 value semantics;
for n ≤ 1 the logarithm produces -inf (n = 1) or NaN (n = 0). -/
noncomputable def c_factorF (n : ℕ) : F :=
  subF (mulF (.fin 2) (addF (lnF (.fin ((n : ℝ) - 1))) (.fin eulerGamma)))
    (divF (.fin (2 * ((n : ℝ) - 1))) (.fin (n : ℝ)))

/-- Modelled from the spec: the crate re-exports `crate::error::Error` but
`src/error.rs` is not present under src/; the spec states exactly two
validation error kinds. -/
inductive Error where
  | InsufficientTrainingData
  | ExtensionLevelExceedsDimensions
deriving DecidableEq

/-- Training options (Rust `ForestOptions`). -/
structure ForestOptions where
  n_trees : ℕ
  sample_size : ℕ
  max_tree_depth : Option ℕ
  extension_level : ℕ

/-- A trained forest: the precomputed normalization factor (an f64 in the
source, hence an F here) plus the owned trees. -/
structure Forest (K : Type) (N : ℕ) where
  avg_path_length_c : F
  trees : List (Tree K N)

/-- Randomness oracle: each stream is indexed by its own call counter.
`uni c lo hi` is the c-th `Uniform::new(lo, hi)` sample, `gauss c` the
c-th `StandardNormal` sample, and `choose c n k` the index list returned
by the c-th `choose_multiple(rng, k)` call over n items. -/
structure Oracle (K : Type) where
  uni : ℕ → K → K → K
  gauss : ℕ → K
  choose : ℕ → ℕ → ℕ → List ℕ

/-- Oracle call counters, threaded through the computation in place of the
mutable rng. -/
structure RngState where
  uniCtr : ℕ
  gaussCtr : ℕ
  chooseCtr : ℕ

variable {K : Type} [LinearOrderedField K] {N : ℕ}

/-- Split rule (`determinate_direction`): the sample goes left iff the dot
product of (sample - p) with the normal n is ≤ 0.  The dot product is the
source's left fold in index order
(`zip(p) - zip(n) - fold(zero, sum + sp_val * n_val)`); over exact field
arithmetic it equals the indexed sum (proved below). -/
def determinate_direction (sample n p : Point K N) : Direction :=
  if (List.finRange N).foldl
      (fun acc i => acc + (sample i - p i) * n i) 0 ≤ 0 then
    .left
  else
    .right

/-- One-pass routing of every sample to the left or right child list, in
input order (the `for sample in samples` loop of `make_node`). -/
def partitionSamples (samples : List (Point K N)) (n p : Point K N) :
    List (Point K N) × List (Point K N) :=
  samples.partition fun s => (determinate_direction s n p).isLeft

/-- Per-coordinate minimum over the samples, seeded from the first sample
(`mins` in `make_node`; only used on nonempty sample lists). -/
def minsOf (samples : List (Point K N)) : Point K N := fun i =>
  samples.tail.foldl (fun a s => if s i < a then s i else a)
    (samples.headD (fun _ => 0) i)

/-- Per-coordinate maximum over the samples (`maxs` in `make_node`). -/
def maxsOf (samples : List (Point K N)) : Point K N := fun i =>
  samples.tail.foldl (fun a s => if a < s i then s i else a)
    (samples.headD (fun _ => 0) i)

/-- Number of coordinates whose range is non-degenerate: exactly those
consume one uniform draw each in the intercept loop. -/
def numVaried (samples : List (Point K N)) : ℕ :=
  (Finset.univ.filter fun i : Fin N => minsOf samples i ≠ maxsOf samples i).card

/-- How many uniform draws the intercept loop consumes strictly before
coordinate i (the loop runs in index order). -/
def drawsBefore (samples : List (Point K N)) (i : Fin N) : ℕ :=
  (Finset.univ.filter fun j : Fin N =>
    j < i ∧ minsOf samples j ≠ maxsOf samples j).card

/-- The intercept point p of `make_node`: coordinate i is the common bound
when the range is degenerate (the source comments that sampling with equal
bounds panics), otherwise the next uniform draw in (min, max). -/
def interceptOf (g : Oracle K) (samples : List (Point K N)) (c0 : ℕ) :
    Point K N := fun i =>
  if minsOf samples i = maxsOf samples i then minsOf samples i
  else g.uni (c0 + drawsBefore samples i) (minsOf samples i) (maxsOf samples i)

/-- The sparse normal vector of `make_node`: the loop
`for idx in (0..N).choose_multiple(rng, active_dims) { n[idx] = gauss }`
writes one standard-normal draw (consumed in list order) at each chosen
index and leaves every other coordinate at zero. -/
def normalOf (g : Oracle K) (chosen : List ℕ) (c0 : ℕ) : Point K N := fun i =>
  if i.val ∈ chosen then g.gauss (c0 + chosen.indexOf i.val) else 0

/-- Recursion core of `make_node`, driven by the remaining depth budget
`max_tree_depth - current_tree_depth`: the source guard
`current_tree_depth >= max_tree_depth` is exactly budget = 0, and each
recursive call at depth+1 has budget one less. -/
def makeNodeGo (g : Oracle K) (maxd ext : ℕ) :
    ℕ → List (Point K N) → RngState → Node K N × RngState
  | 0, samples, st => (.ex samples.length, st)
  | fuel + 1, samples, st =>
    if samples.length ≤ 1 then (.ex samples.length, st)
    else
      let p := interceptOf g samples st.uniCtr
      let chosen := g.choose st.chooseCtr N (ext + 1)
      let nv := normalOf g chosen st.gaussCtr
      let st2 : RngState :=
        ⟨st.uniCtr + numVaried samples, st.gaussCtr + chosen.length,
          st.chooseCtr + 1⟩
      let pr := partitionSamples samples nv p
      let l := makeNodeGo g maxd ext fuel pr.1 st2
      let r := makeNodeGo g maxd ext fuel pr.2 l.2
      (.inn l.1 r.1 nv p, r.2)

/-- `make_node(samples, rng, current_tree_depth, max_tree_depth,
extension_level)`. -/
def make_node (g : Oracle K) (samples : List (Point K N)) (st : RngState)
    (current_tree_depth max_tree_depth extension_level : ℕ) :
    Node K N × RngState :=
  makeNodeGo g max_tree_depth extension_level
    (max_tree_depth - current_tree_depth) samples st

/-- `Tree::new`: builds the root node starting at depth 0. -/
def Tree.new (samples : List (Point K N)) (g : Oracle K) (st : RngState)
    (max_tree_depth extension_level : ℕ) : Tree K N × RngState :=
  let r := make_node g samples st 0 max_tree_depth extension_level
  (⟨r.1⟩, r.2)

/-- The `(0..n_trees).map(..)` loop of `from_slice`: each iteration draws a
bootstrap sample of `sample_size` indices without replacement from the
training data, then builds one tree from it. -/
def buildTrees (g : Oracle K) (training_data : List (Point K N))
    (sample_size max_tree_depth extension_level : ℕ) :
    ℕ → RngState → List (Tree K N) × RngState
  | 0, st => ([], st)
  | k + 1, st =>
    let idxs := g.choose st.chooseCtr training_data.length sample_size
    let st1 : RngState := ⟨st.uniCtr, st.gaussCtr, st.chooseCtr + 1⟩
    let tree_sample := idxs.filterMap fun i => training_data[i]?
    let tr := Tree.new tree_sample g st1 max_tree_depth extension_level
    let rest := buildTrees g training_data sample_size max_tree_depth
      extension_level k tr.2
    (tr.1 :: rest.1, rest.2)

/-- `Forest::from_slice`: fail-fast validation, then resolve the depth
default `ceil(log2(sample_size))`, build the trees and store the
normalization factor.  On an error path the rng state is returned
untouched: the source returns before `thread_rng` is even consulted. -/
noncomputable def Forest.from_slice (g : Oracle K)
    (training_data : List (Point K N)) (options : ForestOptions)
    (st : RngState) : Except Error (Forest K N) × RngState :=
  if training_data.length < options.sample_size ∨ N = 0 then
    (.error .InsufficientTrainingData, st)
  else if options.extension_level > N - 1 then
    (.error .ExtensionLevelExceedsDimensions, st)
  else
    let max_tree_depth := options.max_tree_depth.getD
      (Int.toNat ⌈Real.logb 2 (options.sample_size : ℝ)⌉)
    let built := buildTrees g training_data options.sample_size
      max_tree_depth options.extension_level options.n_trees st
    (.ok ⟨c_factorF options.sample_size, built.1⟩, built.2)

/-- `path_length_recurse`: 0 once the cap is reached; at a leaf 0 for at
most one sample and `c_factor(num_samples)` otherwise; at an internal node
1 plus the recursion into the child selected by `determinate_direction`. -/
noncomputable def path_length_recurse (node : Node K N) (values : Point K N)
    (depth max_depth : ℕ) : ℝ :=
  if depth ≥ max_depth then 0
  else
    match node with
    | .ex m => if m ≤ 1 then 0 else c_factor m
    | .inn l r nv p =>
      match determinate_direction values nv p with
      | .left => 1 + path_length_recurse l values (depth + 1) max_depth
      | .right => 1 + path_length_recurse r values (depth + 1) max_depth

/-- `Tree::path_length_with_cap`. -/
noncomputable def Tree.path_length_with_cap (t : Tree K N)
    (values : Point K N) (max_depth : ℕ) : ℝ :=
  path_length_recurse t.root values 0 max_depth

/-- `Forest::score_with_recursion_cap`: sum the per-tree path lengths,
divide by the tree count (f64 division: 0/0 = NaN for an empty forest),
and return `2.0.powf(-eh / avg_path_length_c)`. -/
noncomputable def Forest.score_with_recursion_cap (f : Forest K N)
    (values : Point K N) (max_depth : ℕ) : F :=
  let path_length : ℝ :=
    (f.trees.map fun t => t.path_length_with_cap values max_depth).sum
  let eh := divF (.fin path_length) (.fin (f.trees.length : ℝ))
  pow2F (divF (negF eh) f.avg_path_length_c)

/-- `Forest::score`: the default recursion cap is
`(avg_path_length_c.ceil() as usize) * 2`. -/
noncomputable def Forest.score (f : Forest K N) (values : Point K N) : F :=
  f.score_with_recursion_cap values (ceilAsUsize f.avg_path_length_c * 2)

/-- Sum of `num_samples` over the external leaves of a subtree. -/
def leafSum : Node K N → ℕ
  | .ex m => m
  | .inn l r _ _ => leafSum l + leafSum r

/-- Every internal node of the subtree has a normal vector with exactly
ext + 1 nonzero coordinates. -/
def normalsOk (ext : ℕ) : Node K N → Prop
  | .ex _ => True
  | .inn l r nv _ =>
      (Finset.univ.filter fun i => nv i ≠ 0).card = ext + 1 ∧
        normalsOk ext l ∧ normalsOk ext r

/-- The f64 value is a finite real in the half-open interval (0, 1]. -/
def inUnitOC (x : F) : Prop := ∃ r : ℝ, x = .fin r ∧ 0 < r ∧ r ≤ 1

/-- Concrete oracle used for witnesses: uniform draws return the lower
bound, gaussian draws return 1, and choose_multiple returns the first
min(k, n) indices. -/
def oracleW : Oracle ℚ :=
  ⟨fun _ a _ => a, fun _ => 1, fun _ n k => List.range (min k n)⟩

/-- Concrete points and data for witnesses. -/
def ptW0 : Point ℚ 1 := fun _ => 0

/-- Second witness point. -/
def ptW1 : Point ℚ 1 := fun _ => 1

/-! Helper lemmas. -/

theorem dot_fold_eq_sum (sample n p : Point K N) :
    (List.finRange N).foldl (fun acc i => acc + (sample i - p i) * n i) 0
      = ∑ i, (sample i - p i) * n i := by
  rw [Fin.sum_univ_def, List.sum_eq_foldl, List.foldl_map]

theorem determinate_direction_eq (sample n p : Point K N) :
    determinate_direction sample n p
      = if (∑ i, (sample i - p i) * n i) ≤ 0 then .left else .right := by
  rw [determinate_direction, dot_fold_eq_sum]

theorem divF_fin_fin {x y : ℝ} (h : y ≠ 0) :
    divF (.fin x) (.fin y) = .fin (x / y) := by
  simp [divF, h]

theorem divF_zero_zero : divF (.fin 0) (.fin 0) = .nan := by
  simp [divF]

theorem divF_fin_ninf (x : ℝ) : divF (.fin x) .ninf = .fin 0 := rfl

theorem divF_nan (b : F) : divF .nan b = .nan := by
  cases b <;> rfl

theorem c_factor_pos {n : ℕ} (h : 2 ≤ n) : 0 < c_factor n := by
  rcases Nat.lt_or_ge n 3 with h3 | h3
  · have hn : n = 2 := by omega
    subst hn
    have : ((2 : ℕ) : ℝ) - 1 = 1 := by norm_num
    rw [c_factor, this, Real.log_one, eulerGamma]
    norm_num
  · have hx : (3 : ℝ) ≤ (n : ℝ) := by exact_mod_cast h3
    have hlog : Real.log 2 ≤ Real.log ((n : ℝ) - 1) :=
      Real.log_le_log (by norm_num) (by linarith)
    have hlog2 : (0.6931471803 : ℝ) < Real.log 2 := Real.log_two_gt_d9
    have hdiv : 2 * ((n : ℝ) - 1) / (n : ℝ) < 2 := by
      rw [div_lt_iff₀ (by linarith : (0 : ℝ) < (n : ℝ))]
      linarith
    rw [c_factor, eulerGamma]
    norm_num at hdiv ⊢
    linarith

theorem path_length_recurse_nonneg (node : Node K N) (v : Point K N)
    (d m : ℕ) : 0 ≤ path_length_recurse node v d m := by
  induction node generalizing d with
  | ex k =>
    rw [path_length_recurse]
    split
    · exact le_refl 0
    · split
      · exact le_refl 0
      · exact (c_factor_pos (by omega)).le
  | inn l r nv p ihl ihr =>
    rw [path_length_recurse]
    split
    · exact le_refl 0
    · cases determinate_direction v nv p
      · have := ihl (d + 1)
        dsimp only
        linarith
      · have := ihr (d + 1)
        dsimp only
        linarith

theorem c_factorF_fin {n : ℕ} (h : 2 ≤ n) :
    c_factorF n = .fin (c_factor n) := by
  have h1 : (0 : ℝ) < (n : ℝ) - 1 := by
    have : (2 : ℝ) ≤ (n : ℝ) := by exact_mod_cast h
    linarith
  have h2 : ((n : ℝ)) ≠ 0 := by
    have : (0 : ℝ) < (n : ℝ) := by linarith
    exact this.ne'
  rw [c_factorF, lnF, if_pos h1]
  rw [show divF (.fin (2 * ((n : ℝ) - 1))) (.fin (n : ℝ))
        = .fin (2 * ((n : ℝ) - 1) / (n : ℝ)) from divF_fin_fin h2]
  rw [addF, mulF, subF, negF, addF, c_factor]
  congr 1

theorem c_factorF_one : c_factorF 1 = .ninf := by
  have h0 : ((1 : ℕ) : ℝ) - 1 = 0 := by norm_num
  rw [c_factorF, lnF, h0, if_neg (lt_irrefl 0), if_pos rfl]
  rw [show addF .ninf (.fin eulerGamma) = .ninf from rfl]
  rw [show mulF (.fin 2) .ninf
        = if (2 : ℝ) = 0 then .nan else if 0 < (2 : ℝ) then .ninf else .pinf
      from rfl]
  rw [if_neg (by norm_num : ¬(2 : ℝ) = 0), if_pos (by norm_num : (0 : ℝ) < 2)]
  rw [divF_fin_fin (by norm_num : ((1 : ℕ) : ℝ) ≠ 0)]
  rfl

theorem buildTrees_length (g : Oracle K) (data : List (Point K N))
    (s maxd ext : ℕ) : ∀ (k : ℕ) (st : RngState),
    ((buildTrees g data s maxd ext k st).1).length = k := by
  intro k
  induction k with
  | zero => intro st; rfl
  | succ n ih => intro st; simp [buildTrees, ih]

theorem from_slice_ok {g : Oracle K} {data : List (Point K N)}
    {opts : ForestOptions} {st st' : RngState} {f : Forest K N}
    (h : Forest.from_slice g data opts st = (.ok f, st')) :
    f.avg_path_length_c = c_factorF opts.sample_size ∧
      f.trees.length = opts.n_trees ∧
      ¬(data.length < opts.sample_size ∨ N = 0) ∧
      ¬(opts.extension_level > N - 1) := by
  by_cases h1 : data.length < opts.sample_size ∨ N = 0
  · rw [Forest.from_slice, if_pos h1] at h
    exact absurd (congrArg Prod.fst h) (by simp)
  by_cases h2 : opts.extension_level > N - 1
  · rw [Forest.from_slice, if_neg h1, if_pos h2] at h
    exact absurd (congrArg Prod.fst h) (by simp)
  rw [Forest.from_slice, if_neg h1, if_neg h2] at h
  have hf := congrArg Prod.fst h
  rw [Except.ok.injEq] at hf
  subst hf
  exact ⟨rfl, buildTrees_length _ _ _ _ _ _ _, h1, h2⟩

theorem isLeft_eq_true {d : Direction} : d.isLeft = true ↔ d = .left := by
  cases d <;> simp [Direction.isLeft]

theorem isLeft_eq_false {d : Direction} : d.isLeft = false ↔ d = .right := by
  cases d <;> simp [Direction.isLeft]

/-- Claim C1: for every forest and point, `score` equals
`score_with_recursion_cap` at the default cap `ceil(avg_path_length_c) * 2`,
and `score_with_recursion_cap` is exactly `2^(-E / avg_path_length_c)` with
E the mean over trees of the capped path length; when the forest is
nonempty and the stored factor is a nonzero finite value this is the
finite real `2^(-(sum/len)/c)`. -/
theorem score_formula (f : Forest K N) (pt : Point K N) :
    f.score pt
      = f.score_with_recursion_cap pt (ceilAsUsize f.avg_path_length_c * 2) ∧
    (∀ m, f.score_with_recursion_cap pt m =
      pow2F (divF (negF (divF
        (.fin ((f.trees.map fun t => t.path_length_with_cap pt m).sum))
        (.fin (f.trees.length : ℝ)))) f.avg_path_length_c)) ∧
    (∀ m c, f.trees ≠ [] → f.avg_path_length_c = .fin c → c ≠ 0 →
      f.score_with_recursion_cap pt m =
        .fin ((2 : ℝ) ^
          (-((f.trees.map fun t => t.path_length_with_cap pt m).sum /
              (f.trees.length : ℝ)) / c))) := by
  refine ⟨rfl, fun m => rfl, fun m c hne hc hc0 => ?_⟩
  have hL : ((f.trees.length : ℝ)) ≠ 0 := by
    have hl : f.trees.length ≠ 0 := fun h => hne (List.length_eq_zero.mp h)
    exact_mod_cast hl
  simp only [Forest.score_with_recursion_cap]
  rw [hc, divF_fin_fin hL]
  rw [show negF (.fin ((f.trees.map fun t =>
      t.path_length_with_cap pt m).sum / (f.trees.length : ℝ)))
    = .fin (-((f.trees.map fun t => t.path_length_with_cap pt m).sum /
      (f.trees.length : ℝ))) from rfl]
  rw [divF_fin_fin hc0]
  rfl

/-- Witness for C1: a one-tree forest with factor 1 scores `2^0 = 1`. -/
theorem score_formula_witness :
    (⟨.fin 1, [⟨Node.ex 0⟩]⟩ : Forest ℚ 1).score_with_recursion_cap ptW0 7
      = .fin 1 := by
  have h := (score_formula (⟨.fin 1, [⟨Node.ex 0⟩]⟩ : Forest ℚ 1) ptW0).2.2 7 1
    (by simp) rfl one_ne_zero
  rw [h]
  norm_num [Tree.path_length_with_cap, path_length_recurse, Real.rpow_zero]

/-- Claim C3: the per-tree path length returns 0 once depth reaches the
cap (before inspecting the node); at an external node it is 0 for at most
one sample and `c_factor(num_samples)` otherwise; at an internal node it
is 1 plus the recursion at depth+1 into the child selected by the dot
product rule, with the boundary (dot = 0) routed left — the same rule the
construction partition uses. -/
theorem path_length_recurse_spec (node : Node K N) (v : Point K N)
    (depth max_depth : ℕ) :
    (depth ≥ max_depth → path_length_recurse node v depth max_depth = 0) ∧
    (depth < max_depth → ∀ m, node = .ex m →
      path_length_recurse node v depth max_depth
        = if m ≤ 1 then 0 else c_factor m) ∧
    (depth < max_depth → ∀ l r nv p, node = .inn l r nv p →
      path_length_recurse node v depth max_depth =
        1 + path_length_recurse
          (match determinate_direction v nv p with
            | .left => l
            | .right => r)
          v (depth + 1) max_depth) ∧
    (∀ s nv p : Point K N,
      (determinate_direction s nv p = .left ↔
        (∑ i, (s i - p i) * nv i) ≤ 0) ∧
      (determinate_direction s nv p = .right ↔
        0 < (∑ i, (s i - p i) * nv i)) ∧
      ((∑ i, (s i - p i) * nv i) = 0 →
        determinate_direction s nv p = .left)) ∧
    (∀ (samples : List (Point K N)) (nv p s : Point K N),
      (s ∈ (partitionSamples samples nv p).1 ↔
        s ∈ samples ∧ determinate_direction s nv p = .left) ∧
      (s ∈ (partitionSamples samples nv p).2 ↔
        s ∈ samples ∧ determinate_direction s nv p = .right)) := by
  refine ⟨?_, ?_, ?_, ?_, ?_⟩
  · intro h
    rw [path_length_recurse.eq_def, if_pos h]
  · intro h m hm
    subst hm
    rw [path_length_recurse.eq_def, if_neg (by omega)]
  · intro h l r nv p hm
    subst hm
    rw [path_length_recurse.eq_def, if_neg (by omega)]
    cases hdir : determinate_direction v nv p <;> simp [hdir]
  · intro s nv p
    simp only [determinate_direction_eq]
    by_cases hle : (∑ i, (s i - p i) * nv i) ≤ 0
    · simp [hle]
    · simp [hle, not_le.mp hle]
      intro h
      exact absurd (le_of_eq h) hle
  · intro samples nv p s
    rw [partitionSamples, List.partition_eq_filter_filter]
    constructor
    · simp [List.mem_filter, isLeft_eq_true]
    · simp [List.mem_filter, Function.comp, Bool.not_eq_true', isLeft_eq_false]

/-- Witness for C3: the cap case, a 2-sample leaf, and a boundary point. -/
theorem path_length_recurse_spec_witness :
    path_length_recurse (Node.ex 5 : Node ℚ 1) ptW0 3 3 = 0 ∧
    path_length_recurse (Node.ex 2 : Node ℚ 1) ptW0 0 3 = c_factor 2 ∧
    determinate_direction ptW0 ptW1 ptW0 = .left := by
  refine ⟨(path_length_recurse_spec _ _ 3 3).1 (le_refl 3), ?_, ?_⟩
  · have h := (path_length_recurse_spec (Node.ex 2 : Node ℚ 1) ptW0 0 3).2.1
      (by omega) 2 rfl
    rw [h, if_neg (by omega)]
  · exact ((path_length_recurse_spec (Node.ex 0 : Node ℚ 1) ptW0 0 3).2.2.2.1
      ptW0 ptW1 ptW0).1.mpr (by simp [ptW0])

/-- Claim C4: the normalization factor is the single closed-form function
`2 * (ln(n-1) + gamma) - 2 * (n-1) / n` with the literal constant
0.5772156649; the same function value appears in leaves (for n ≥ 2) and,
via its f64 evaluation, as the factor stored by training. -/
theorem c_factor_spec :
    (∀ n : ℕ, c_factor n =
      2 * (Real.log ((n : ℝ) - 1) + eulerGamma)
        - 2 * ((n : ℝ) - 1) / (n : ℝ)) ∧
    eulerGamma = 5772156649 / 10 ^ 10 ∧
    (∀ n : ℕ, 2 ≤ n → c_factorF n = .fin (c_factor n)) ∧
    (∀ (g : Oracle K) (data : List (Point K N)) (opts : ForestOptions)
      (st st' : RngState) (f : Forest K N),
      Forest.from_slice g data opts st = (.ok f, st') →
      f.avg_path_length_c = c_factorF opts.sample_size) ∧
    (∀ (v : Point K N) (d maxd m : ℕ), d < maxd → 2 ≤ m →
      path_length_recurse (.ex m) v d maxd = c_factor m) := by
  refine ⟨fun n => rfl, ?_, fun n h => c_factorF_fin h, ?_, ?_⟩
  · rw [eulerGamma]
    norm_num
  · intro g data opts st st' f h
    exact (from_slice_ok h).1
  · intro v d maxd m hd hm
    rw [path_length_recurse, if_neg (by omega), if_neg (by omega)]

/-- Witness for C4: the f64 and real evaluations agree at n = 2 and a
2-sample leaf contributes exactly `c_factor 2`. -/
theorem c_factor_spec_witness :
    c_factorF 2 = .fin (c_factor 2) ∧
    path_length_recurse (Node.ex 2 : Node ℚ 1) ptW0 0 5 = c_factor 2 := by
  have h := @c_factor_spec ℚ _ 1
  exact ⟨h.2.2.1 2 (le_refl 2), h.2.2.2.2 ptW0 0 5 2 (by omega) (le_refl 2)⟩

/-- Claim C5: training fails with `InsufficientTrainingData` exactly when
the training set is smaller than `sample_size` or N = 0, with
`ExtensionLevelExceedsDimensions` exactly when the first check passes and
`extension_level > N - 1`; on every error path the rng state is returned
untouched (no randomness consumed, no tree built), and in every other case
training returns a forest — in particular when the training set length
equals `sample_size`. -/
theorem from_slice_validation (g : Oracle K) (data : List (Point K N))
    (opts : ForestOptions) (st : RngState) :
    ((Forest.from_slice g data opts st).1
        = .error .InsufficientTrainingData ↔
      data.length < opts.sample_size ∨ N = 0) ∧
    ((Forest.from_slice g data opts st).1
        = .error .ExtensionLevelExceedsDimensions ↔
      ¬(data.length < opts.sample_size ∨ N = 0) ∧
        opts.extension_level > N - 1) ∧
    (∀ e, (Forest.from_slice g data opts st).1 = .error e →
      (Forest.from_slice g data opts st).2 = st) ∧
    (¬(data.length < opts.sample_size ∨ N = 0) →
      ¬(opts.extension_level > N - 1) →
      ∃ f, (Forest.from_slice g data opts st).1 = .ok f) ∧
    (data.length = opts.sample_size → N ≠ 0 →
      opts.extension_level ≤ N - 1 →
      ∃ f, (Forest.from_slice g data opts st).1 = .ok f) := by
  by_cases h1 : data.length < opts.sample_size ∨ N = 0
  · rw [Forest.from_slice, if_pos h1]
    refine ⟨by simp [h1], by simp [h1], fun e _ => rfl, fun hn _ => absurd h1 hn,
      fun hlen hN _ => ?_⟩
    exact absurd h1 (by simp [hlen, hN])
  by_cases h2 : opts.extension_level > N - 1
  · rw [Forest.from_slice, if_neg h1, if_pos h2]
    refine ⟨by simp [h1], by simp [h1, h2], fun e _ => rfl,
      fun _ hn => absurd h2 hn, fun _ _ hn => absurd h2 (by omega)⟩
  · rw [Forest.from_slice, if_neg h1, if_neg h2]
    exact ⟨by simp [h1], by simp [h1, h2], fun e he => absurd he (by simp),
      fun _ _ => ⟨_, rfl⟩, fun _ _ _ => ⟨_, rfl⟩⟩

/-- Witness for C5: a one-point training set with sample_size 1 trains
successfully, and an empty one fails with `InsufficientTrainingData`. -/
theorem from_slice_validation_witness :
    (∃ f, (Forest.from_slice oracleW [ptW0] ⟨1, 1, some 0, 0⟩ ⟨0, 0, 0⟩).1
      = .ok f) ∧
    ((Forest.from_slice oracleW ([] : List (Point ℚ 1)) ⟨1, 1, some 0, 0⟩
      ⟨0, 0, 0⟩).1 = .error .InsufficientTrainingData) := by
  constructor
  · exact (from_slice_validation oracleW [ptW0] ⟨1, 1, some 0, 0⟩
      ⟨0, 0, 0⟩).2.2.2.2 rfl (by decide) (by decide)
  · exact (from_slice_validation oracleW ([] : List (Point ℚ 1))
      ⟨1, 1, some 0, 0⟩ ⟨0, 0, 0⟩).1.mpr (by simp)

/-- Claim C2 counterexample: training with `n_trees = 0` succeeds, and the
resulting forest scores every point to NaN, which is not in (0, 1]. -/
theorem score_zero_trees_counterexample :
    (Forest.from_slice oracleW [ptW0] ⟨0, 1, some 0, 0⟩ ⟨0, 0, 0⟩).1
      = .ok ⟨c_factorF 1, []⟩ ∧
    Forest.score ⟨c_factorF 1, []⟩ ptW0 = .nan ∧
    ¬ inUnitOC (Forest.score ⟨c_factorF 1, []⟩ ptW0) := by
  have hnan : Forest.score (⟨c_factorF 1, []⟩ : Forest ℚ 1) ptW0 = .nan := by
    rw [Forest.score]
    simp only [Forest.score_with_recursion_cap, List.map_nil, List.sum_nil,
      List.length_nil, Nat.cast_zero]
    rw [divF_zero_zero]
    rw [show negF .nan = .nan from rfl, divF_nan]
    rfl
  refine ⟨rfl, hnan, ?_⟩
  rw [hnan]
  rintro ⟨r, hr, -⟩
  cases hr

/-- Claim C2 (amended): for every forest returned by a successful training
call with `n_trees ≥ 1` and `sample_size ≥ 1`, and every point, `score`
and `score_with_recursion_cap` (any cap) return a finite value in (0, 1]. -/
theorem score_in_unit_interval (g : Oracle K) (data : List (Point K N))
    (opts : ForestOptions) (st st' : RngState) (f : Forest K N)
    (pt : Point K N) (m : ℕ)
    (hok : Forest.from_slice g data opts st = (.ok f, st'))
    (ht : 1 ≤ opts.n_trees) (hs : 1 ≤ opts.sample_size) :
    inUnitOC (f.score_with_recursion_cap pt m) ∧ inUnitOC (f.score pt) := by
  obtain ⟨hc, hlen, -, -⟩ := from_slice_ok hok
  suffices h : ∀ m', inUnitOC (f.score_with_recursion_cap pt m') by
    exact ⟨h m, h _⟩
  intro m'
  have hL : ((f.trees.length : ℝ)) ≠ 0 := by
    rw [hlen]
    exact_mod_cast (by omega : opts.n_trees ≠ 0)
  have hLpos : (0 : ℝ) < (f.trees.length : ℝ) := by
    rw [hlen]
    exact_mod_cast (by omega : 0 < opts.n_trees)
  have hS0 : 0 ≤ (f.trees.map fun t => t.path_length_with_cap pt m').sum := by
    apply List.sum_nonneg
    intro x hx
    obtain ⟨t, -, rfl⟩ := List.mem_map.mp hx
    exact path_length_recurse_nonneg t.root pt 0 m'
  rcases Nat.lt_or_ge opts.sample_size 2 with hs1 | hs2
  · have h1 : opts.sample_size = 1 := by omega
    rw [h1] at hc
    simp only [Forest.score_with_recursion_cap]
    rw [hc, c_factorF_one, divF_fin_fin hL]
    rw [show negF (.fin ((f.trees.map fun t =>
        t.path_length_with_cap pt m').sum / (f.trees.length : ℝ)))
      = .fin (-((f.trees.map fun t => t.path_length_with_cap pt m').sum /
        (f.trees.length : ℝ))) from rfl]
    rw [divF_fin_ninf]
    exact ⟨(2 : ℝ) ^ (0 : ℝ), rfl, Real.rpow_pos_of_pos (by norm_num) _,
      by rw [Real.rpow_zero]⟩
  · have hcf := c_factorF_fin hs2
    have hcpos := c_factor_pos hs2
    simp only [Forest.score_with_recursion_cap]
    rw [hc, hcf, divF_fin_fin hL]
    rw [show negF (.fin ((f.trees.map fun t =>
        t.path_length_with_cap pt m').sum / (f.trees.length : ℝ)))
      = .fin (-((f.trees.map fun t => t.path_length_with_cap pt m').sum /
        (f.trees.length : ℝ))) from rfl]
    rw [divF_fin_fin hcpos.ne']
    refine ⟨_, rfl, Real.rpow_pos_of_pos (by norm_num) _, ?_⟩
    apply Real.rpow_le_one_of_one_le_of_nonpos (by norm_num)
    have hq : 0 ≤ (f.trees.map fun t => t.path_length_with_cap pt m').sum /
        (f.trees.length : ℝ) := div_nonneg hS0 hLpos.le
    exact div_nonpos_of_nonpos_of_nonneg (neg_nonpos.mpr hq) hcpos.le

/-- Witness for C2 (amended): a concrete 2-point training run with one
tree scores in (0, 1]. -/
theorem score_in_unit_interval_witness :
    inUnitOC ((⟨c_factorF 2, [⟨Node.ex 2⟩]⟩ : Forest ℚ 1).score ptW0) :=
  (score_in_unit_interval oracleW [ptW0, ptW1] ⟨1, 2, some 0, 0⟩ ⟨0, 0, 0⟩
    ⟨0, 0, 1⟩ ⟨c_factorF 2, [⟨Node.ex 2⟩]⟩ ptW0 0 rfl (by decide) (by decide)).2

/-- Claim C10: training does not validate `n_trees`: whenever the two
validation checks pass and `n_trees = 0`, `from_slice` returns Ok with a
forest owning zero trees, and scoring computes 0/0 for the mean path
length, so `score` (and `score_with_recursion_cap` at every cap) is NaN
and therefore not in (0, 1]. -/
theorem n_trees_zero_nan (g : Oracle K) (data : List (Point K N))
    (opts : ForestOptions) (st : RngState) (pt : Point K N)
    (h0 : opts.n_trees = 0)
    (h1 : ¬(data.length < opts.sample_size ∨ N = 0))
    (h2 : ¬(opts.extension_level > N - 1)) :
    ∃ f st', Forest.from_slice g data opts st = (.ok f, st') ∧
      f.trees = [] ∧
      divF (.fin 0) (.fin (f.trees.length : ℝ)) = .nan ∧
      (∀ m, f.score_with_recursion_cap pt m = .nan) ∧
      f.score pt = .nan ∧
      ¬ inUnitOC (f.score pt) := by
  rw [Forest.from_slice, if_neg h1, if_neg h2]
  simp only [h0]
  rw [show buildTrees g data opts.sample_size
      (opts.max_tree_depth.getD
        (Int.toNat ⌈Real.logb 2 (opts.sample_size : ℝ)⌉))
      opts.extension_level 0 st = ([], st) from rfl]
  refine ⟨⟨c_factorF opts.sample_size, []⟩, st, rfl, rfl, by
    simpa using divF_zero_zero, ?_, ?_, ?_⟩
  · intro m
    simp only [Forest.score_with_recursion_cap, List.map_nil, List.sum_nil,
      List.length_nil, Nat.cast_zero]
    rw [divF_zero_zero, show negF .nan = .nan from rfl, divF_nan]
    rfl
  · rw [Forest.score]
    simp only [Forest.score_with_recursion_cap, List.map_nil, List.sum_nil,
      List.length_nil, Nat.cast_zero]
    rw [divF_zero_zero, show negF .nan = .nan from rfl, divF_nan]
    rfl
  · rw [Forest.score]
    simp only [Forest.score_with_recursion_cap, List.map_nil, List.sum_nil,
      List.length_nil, Nat.cast_zero]
    rw [divF_zero_zero, show negF .nan = .nan from rfl, divF_nan]
    rw [show pow2F .nan = .nan from rfl]
    rintro ⟨r, hr, -⟩
    cases hr

/-- Witness for C10: the concrete `n_trees = 0` training run. -/
theorem n_trees_zero_nan_witness :
    ∃ (f : Forest ℚ 1) (st' : RngState),
      Forest.from_slice oracleW [ptW0] ⟨0, 1, some 0, 0⟩ ⟨0, 0, 0⟩
        = (.ok f, st') ∧
      f.trees = [] ∧
      divF (.fin 0) (.fin (f.trees.length : ℝ)) = .nan ∧
      (∀ m, f.score_with_recursion_cap ptW0 m = .nan) ∧
      f.score ptW0 = .nan ∧
      ¬ inUnitOC (f.score ptW0) :=
  n_trees_zero_nan oracleW [ptW0] ⟨0, 1, some 0, 0⟩ ⟨0, 0, 0⟩ ptW0 rfl
    (by decide) (by decide)

theorem makeNodeGo_leafSum (g : Oracle K) (maxd ext : ℕ) :
    ∀ (fuel : ℕ) (samples : List (Point K N)) (st : RngState),
    leafSum (makeNodeGo g maxd ext fuel samples st).1 = samples.length := by
  intro fuel
  induction fuel with
  | zero => intro samples st; rfl
  | succ n ih =>
    intro samples st
    by_cases hlen : samples.length ≤ 1
    · rw [makeNodeGo, if_pos hlen]
      rfl
    · rw [makeNodeGo, if_neg hlen]
      dsimp only
      rw [leafSum, ih, ih]
      have hperm := (List.filter_append_perm
        (fun s => (determinate_direction s
          (normalOf g (g.choose st.chooseCtr N (ext + 1)) st.gaussCtr)
          (interceptOf g samples st.uniCtr)).isLeft) samples).length_eq
      simp only [List.length_append] at hperm
      simpa [partitionSamples, List.partition_eq_filter_filter] using hperm

/-- Claim C6: the two child sample lists of every internal construction
step are a permutation of the node's input samples (each sample routed to
exactly one side, none duplicated, none dropped), and summing
`num_samples` over the external leaves of a constructed subtree gives
exactly the number of samples it was built from. -/
theorem make_node_partition (g : Oracle K) (samples : List (Point K N))
    (st : RngState) (d maxd ext : ℕ) :
    (∀ nv p : Point K N,
      ((partitionSamples samples nv p).1 ++
        (partitionSamples samples nv p).2).Perm samples) ∧
    leafSum (make_node g samples st d maxd ext).1 = samples.length := by
  constructor
  · intro nv p
    rw [partitionSamples, List.partition_eq_filter_filter]
    exact List.filter_append_perm _ samples
  · rw [make_node]
    exact makeNodeGo_leafSum g maxd ext _ samples st

theorem normalOf_card (g : Oracle K) (chosen : List ℕ) (c0 : ℕ)
    (hnd : chosen.Nodup) (hlt : ∀ i ∈ chosen, i < N)
    (hg : ∀ c, g.gauss c ≠ 0) :
    (Finset.univ.filter fun i : Fin N =>
      normalOf g chosen c0 i ≠ 0).card = chosen.length := by
  have hset : (Finset.univ.filter fun i : Fin N =>
      normalOf g chosen c0 i ≠ 0)
      = Finset.attachFin chosen.toFinset
          (fun m hm => hlt m (List.mem_toFinset.mp hm)) := by
    ext i
    by_cases hm : i.val ∈ chosen <;>
      simp [normalOf, hm, hg, Finset.mem_attachFin]
  rw [hset, Finset.card_attachFin]
  exact List.toFinset_card_of_nodup hnd

theorem makeNodeGo_normalsOk (g : Oracle K) (maxd ext : ℕ)
    (hN : ext + 1 ≤ N)
    (hchoose : ∀ c n k, (g.choose c n k).Nodup ∧
      (∀ i ∈ g.choose c n k, i < n) ∧ (g.choose c n k).length = min k n)
    (hg : ∀ c, g.gauss c ≠ 0) :
    ∀ (fuel : ℕ) (samples : List (Point K N)) (st : RngState),
    normalsOk ext (makeNodeGo g maxd ext fuel samples st).1 := by
  intro fuel
  induction fuel with
  | zero => intro samples st; trivial
  | succ n ih =>
    intro samples st
    by_cases hlen : samples.length ≤ 1
    · rw [makeNodeGo, if_pos hlen]
      trivial
    · rw [makeNodeGo, if_neg hlen]
      dsimp only
      obtain ⟨hnd, hlt, hlenc⟩ := hchoose st.chooseCtr N (ext + 1)
      refine ⟨?_, ih _ _, ih _ _⟩
      rw [normalOf_card g _ _ hnd hlt hg, hlenc]
      omega

theorem from_slice_ok_trees {g : Oracle K} {data : List (Point K N)}
    {opts : ForestOptions} {st st' : RngState} {f : Forest K N}
    (h : Forest.from_slice g data opts st = (.ok f, st')) :
    ∃ maxd, f.trees = (buildTrees g data opts.sample_size maxd
      opts.extension_level opts.n_trees st).1 := by
  obtain ⟨-, -, h1, h2⟩ := from_slice_ok h
  rw [Forest.from_slice, if_neg h1, if_neg h2] at h
  have hf := congrArg Prod.fst h
  rw [Except.ok.injEq] at hf
  exact ⟨_, (congrArg Forest.trees hf).symm⟩

theorem buildTrees_root (g : Oracle K) (data : List (Point K N))
    (s maxd ext : ℕ) : ∀ (k : ℕ) (st : RngState) (t : Tree K N),
    t ∈ (buildTrees g data s maxd ext k st).1 →
    ∃ (samples : List (Point K N)) (st1 : RngState),
      t.root = (make_node g samples st1 0 maxd ext).1 := by
  intro k
  induction k with
  | zero => intro st t ht; cases ht
  | succ n ih =>
    intro st t ht
    rw [buildTrees] at ht
    rcases List.mem_cons.mp ht with h | h
    · subst h
      exact ⟨_, _, rfl⟩
    · exact ih _ _ h

/-- Claim C7: in every tree of a trained forest, every internal node's
normal vector has exactly `extension_level + 1` nonzero coordinates (the
chosen dimension indices are distinct and in range, and each receives a
nonzero standard-normal draw), all other coordinates being exactly zero
by construction. -/
theorem forest_normalsOk (g : Oracle K) (data : List (Point K N))
    (opts : ForestOptions) (st st' : RngState) (f : Forest K N)
    (hok : Forest.from_slice g data opts st = (.ok f, st'))
    (hchoose : ∀ c n k, (g.choose c n k).Nodup ∧
      (∀ i ∈ g.choose c n k, i < n) ∧ (g.choose c n k).length = min k n)
    (hg : ∀ c, g.gauss c ≠ 0) :
    ∀ t ∈ f.trees, normalsOk opts.extension_level t.root := by
  obtain ⟨-, -, h1, h2⟩ := from_slice_ok hok
  have hN : opts.extension_level + 1 ≤ N := by
    rcases not_or.mp h1 with ⟨-, hN0⟩
    omega
  obtain ⟨maxd, htrees⟩ := from_slice_ok_trees hok
  intro t ht
  rw [htrees] at ht
  obtain ⟨samples, st1, hroot⟩ := buildTrees_root g data _ maxd _ _ st t ht
  rw [hroot, make_node]
  exact makeNodeGo_normalsOk g maxd _ hN hchoose hg _ samples st1

theorem witnessDirLeft : determinate_direction ptW0 (normalOf oracleW [0] 0)
    (interceptOf oracleW [ptW0, ptW1] 0) = .left := by
  have hp : interceptOf oracleW [ptW0, ptW1] 0 0 = 0 := rfl
  have hn : normalOf (N := 1) oracleW [0] 0 0 = 1 := rfl
  have hw : ptW0 0 = 0 := rfl
  rw [determinate_direction_eq, Fin.sum_univ_one, hp, hn, hw,
    if_pos (by norm_num : ((0 : ℚ) - 0) * 1 ≤ 0)]

theorem witnessDirRight : determinate_direction ptW1 (normalOf oracleW [0] 0)
    (interceptOf oracleW [ptW0, ptW1] 0) = .right := by
  have hp : interceptOf oracleW [ptW0, ptW1] 0 0 = 0 := rfl
  have hn : normalOf (N := 1) oracleW [0] 0 0 = 1 := rfl
  have hw : ptW1 0 = 1 := rfl
  rw [determinate_direction_eq, Fin.sum_univ_one, hp, hn, hw,
    if_neg (by norm_num : ¬((1 : ℚ) - 0) * 1 ≤ 0)]

theorem witnessPartition : partitionSamples [ptW0, ptW1]
    (normalOf oracleW [0] 0) (interceptOf oracleW [ptW0, ptW1] 0)
      = ([ptW0], [ptW1]) := by
  rw [partitionSamples, List.partition_eq_filter_filter]
  simp [List.filter_cons, witnessDirLeft, witnessDirRight, Direction.isLeft,
    Function.comp]

theorem witnessNode : makeNodeGo oracleW 1 0 1 [ptW0, ptW1] ⟨0, 0, 1⟩
    = (Node.inn (.ex 1) (.ex 1) (normalOf oracleW [0] 0)
        (interceptOf oracleW [ptW0, ptW1] 0), ⟨1, 1, 2⟩) := by
  have hnv : numVaried [ptW0, ptW1] = 1 := by decide
  have hch : oracleW.choose 1 1 1 = [0] := rfl
  rw [makeNodeGo]
  simp [hch, witnessPartition, makeNodeGo, hnv]

theorem witnessBuild : buildTrees oracleW [ptW0, ptW1] 2 1 0 1 ⟨0, 0, 0⟩
    = ([⟨Node.inn (.ex 1) (.ex 1) (normalOf oracleW [0] 0)
        (interceptOf oracleW [ptW0, ptW1] 0)⟩], ⟨1, 1, 2⟩) := by
  have hch : oracleW.choose 0 2 2 = [0, 1] := rfl
  have hsample : ([0, 1].filterMap fun i => [ptW0, ptW1][i]?)
      = [ptW0, ptW1] := rfl
  rw [buildTrees]
  simp [hch, hsample, Tree.new, make_node, witnessNode, buildTrees]

theorem witnessTrain : Forest.from_slice oracleW [ptW0, ptW1]
    ⟨1, 2, some 1, 0⟩ ⟨0, 0, 0⟩
    = (.ok ⟨c_factorF 2, [⟨Node.inn (.ex 1) (.ex 1) (normalOf oracleW [0] 0)
        (interceptOf oracleW [ptW0, ptW1] 0)⟩]⟩, ⟨1, 1, 2⟩) := by
  rw [Forest.from_slice, if_neg (by decide), if_neg (by decide)]
  simp [witnessBuild]

/-- Witness for C7: a concrete training run with depth cap 1 whose single
tree has an internal root splitting the two samples (the full evaluation
is `witnessTrain`); the root's normal vector has exactly one nonzero
coordinate.  The oracle satisfies the choose_multiple contract and
returns nonzero gaussians. -/
theorem forest_normalsOk_witness :
    normalsOk 0 (Node.inn (Node.ex 1) (Node.ex 1)
      (normalOf oracleW [0] 0) (interceptOf oracleW [ptW0, ptW1] 0)
        : Node ℚ 1) :=
  forest_normalsOk oracleW [ptW0, ptW1] ⟨1, 2, some 1, 0⟩ ⟨0, 0, 0⟩
    ⟨1, 1, 2⟩
    ⟨c_factorF 2, [⟨Node.inn (Node.ex 1) (Node.ex 1)
      (normalOf oracleW [0] 0) (interceptOf oracleW [ptW0, ptW1] 0)⟩]⟩
    witnessTrain
    (fun c n k => by
      refine ⟨?_, ?_, ?_⟩
      · exact List.nodup_range _
      · intro i hi
        have hm : i < min k n := List.mem_range.mp hi
        omega
      · exact List.length_range _)
    (fun c => one_ne_zero)
    ⟨Node.inn (Node.ex 1) (Node.ex 1)
      (normalOf oracleW [0] 0) (interceptOf oracleW [ptW0, ptW1] 0)⟩
    (List.mem_singleton.mpr rfl)

theorem foldl_min_le (i : Fin N) :
    ∀ (l : List (Point K N)) (a : K),
    l.foldl (fun a s => if s i < a then s i else a) a ≤ a := by
  intro l
  induction l with
  | nil => intro a; exact le_refl a
  | cons s t ih =>
    intro a
    refine le_trans (ih _) ?_
    dsimp only
    split
    · exact le_of_lt (by assumption)
    · exact le_refl a

theorem le_foldl_max (i : Fin N) :
    ∀ (l : List (Point K N)) (a : K),
    a ≤ l.foldl (fun a s => if a < s i then s i else a) a := by
  intro l
  induction l with
  | nil => intro a; exact le_refl a
  | cons s t ih =>
    intro a
    refine le_trans ?_ (ih _)
    dsimp only
    split
    · exact le_of_lt (by assumption)
    · exact le_refl a

theorem foldl_min_const (i : Fin N) (v : K) :
    ∀ l : List (Point K N), (∀ s ∈ l, s i = v) →
    l.foldl (fun a s => if s i < a then s i else a) v = v := by
  intro l
  induction l with
  | nil => intro _; rfl
  | cons s t ih =>
    intro h
    have hs : s i = v := h s (List.mem_cons_self s t)
    rw [List.foldl_cons, hs, if_neg (lt_irrefl v)]
    exact ih fun x hx => h x (List.mem_cons_of_mem s hx)

theorem foldl_max_const (i : Fin N) (v : K) :
    ∀ l : List (Point K N), (∀ s ∈ l, s i = v) →
    l.foldl (fun a s => if a < s i then s i else a) v = v := by
  intro l
  induction l with
  | nil => intro _; rfl
  | cons s t ih =>
    intro h
    have hs : s i = v := h s (List.mem_cons_self s t)
    rw [List.foldl_cons, hs, if_neg (lt_irrefl v)]
    exact ih fun x hx => h x (List.mem_cons_of_mem s hx)

/-- Claim C8: on a nonempty sample subset, min ≤ max holds per coordinate;
when the subset is constant along coordinate i the intercept is exactly
that common value (and the uniform sampler, whose empty-range call would
panic, is not consulted); otherwise min < max strictly (so the sampler's
nonempty-range precondition holds) and the intercept is the uniform draw
between them. -/
theorem intercept_spec (g : Oracle K) (samples : List (Point K N))
    (c0 : ℕ) (i : Fin N) (hne : samples ≠ []) :
    minsOf samples i ≤ maxsOf samples i ∧
    (minsOf samples i = maxsOf samples i →
      interceptOf g samples c0 i = minsOf samples i) ∧
    (∀ v, (∀ s ∈ samples, s i = v) →
      minsOf samples i = v ∧ maxsOf samples i = v ∧
        interceptOf g samples c0 i = v) ∧
    (minsOf samples i ≠ maxsOf samples i →
      minsOf samples i < maxsOf samples i ∧
      interceptOf g samples c0 i =
        g.uni (c0 + drawsBefore samples i)
          (minsOf samples i) (maxsOf samples i)) := by
  obtain ⟨s, t, rfl⟩ := List.exists_cons_of_ne_nil hne
  have hminmax : minsOf (s :: t) i ≤ maxsOf (s :: t) i := by
    rw [minsOf, maxsOf]
    exact le_trans (foldl_min_le i t (s i)) (le_foldl_max i t (s i))
  refine ⟨hminmax, ?_, ?_, ?_⟩
  · intro h
    rw [interceptOf, if_pos h]
  · intro v hv
    have hmin : minsOf (s :: t) i = v := by
      rw [minsOf]
      simp only [List.tail_cons, List.headD_cons]
      rw [hv s (List.mem_cons_self s t)]
      exact foldl_min_const i v t fun x hx => hv x (List.mem_cons_of_mem s hx)
    have hmax : maxsOf (s :: t) i = v := by
      rw [maxsOf]
      simp only [List.tail_cons, List.headD_cons]
      rw [hv s (List.mem_cons_self s t)]
      exact foldl_max_const i v t fun x hx => hv x (List.mem_cons_of_mem s hx)
    refine ⟨hmin, hmax, ?_⟩
    rw [interceptOf, if_pos (hmin.trans hmax.symm), hmin]
  · intro h
    exact ⟨lt_of_le_of_ne hminmax h, by rw [interceptOf, if_neg h]⟩

/-- Witness for C8: a sample list constant along its only coordinate gets
the constant as intercept. -/
theorem intercept_spec_witness :
    interceptOf oracleW [ptW0, ptW0] 0 0 = 0 :=
  ((intercept_spec oracleW [ptW0, ptW0] 0 0 (by simp)).2.2.1 0
    (by intro s hs; rcases List.mem_cons.mp hs with h | h <;>
      simp_all [ptW0])).2.2

/-- Claim C9: training is a pure function of the training data, options
and randomness source: two runs with identical inputs and the same
deterministic oracle and state produce equal forests (structurally
identical trees) and every point scores identically on the two results. -/
theorem training_deterministic (g : Oracle K) (data : List (Point K N))
    (opts : ForestOptions) (st st1 st2 : RngState) (f1 f2 : Forest K N)
    (h1 : Forest.from_slice g data opts st = (.ok f1, st1))
    (h2 : Forest.from_slice g data opts st = (.ok f2, st2)) :
    f1 = f2 ∧ f1.trees = f2.trees ∧ st1 = st2 ∧
      (∀ pt, f1.score pt = f2.score pt) ∧
      (∀ pt m, f1.score_with_recursion_cap pt m
        = f2.score_with_recursion_cap pt m) := by
  rw [h1] at h2
  injection h2 with hp hst
  injection hp with hf
  subst hf
  subst hst
  exact ⟨rfl, rfl, rfl, fun pt => rfl, fun pt m => rfl⟩

/-- Witness for C9: a concrete training run evaluates to an explicit Ok
forest and final rng state (so the theorem's hypotheses are satisfiable),
and two such runs give equal forests with identical scores everywhere. -/
theorem training_deterministic_witness :
    Forest.from_slice oracleW [ptW0, ptW1] ⟨1, 2, some 0, 0⟩ ⟨0, 0, 0⟩
      = (.ok ⟨c_factorF 2, [⟨Node.ex 2⟩]⟩, ⟨0, 0, 1⟩) ∧
    (⟨c_factorF 2, [⟨Node.ex 2⟩]⟩ : Forest ℚ 1)
      = ⟨c_factorF 2, [⟨Node.ex 2⟩]⟩ ∧
    (∀ pt, (⟨c_factorF 2, [⟨Node.ex 2⟩]⟩ : Forest ℚ 1).score pt
      = (⟨c_factorF 2, [⟨Node.ex 2⟩]⟩ : Forest ℚ 1).score pt) := by
  have hok : Forest.from_slice oracleW [ptW0, ptW1] ⟨1, 2, some 0, 0⟩
      ⟨0, 0, 0⟩ = (.ok ⟨c_factorF 2, [⟨Node.ex 2⟩]⟩, ⟨0, 0, 1⟩) := rfl
  have h := training_deterministic oracleW [ptW0, ptW1] ⟨1, 2, some 0, 0⟩
    ⟨0, 0, 0⟩ ⟨0, 0, 1⟩ ⟨0, 0, 1⟩ ⟨c_factorF 2, [⟨Node.ex 2⟩]⟩
    ⟨c_factorF 2, [⟨Node.ex 2⟩]⟩ hok hok
  exact ⟨hok, h.1, h.2.2.2.1⟩

end EIF
